import Mathlib

/-!
Shallow embedding of the Merkle tree core of `anoushk1234/fast-merkle-tree`
(`src/merkle.rs`) and proofs about its height/capacity arithmetic, root
computation, opening generation and opening verification.

Bytes are `Nat` lists; Rust `Vec<Hash>` is `List Hash`; fallible operations
return `Except MerkleTreeError`; a Rust panic (out-of-bounds index or slice)
is rendered as `Option.none` where it is reachable.
-/

/-- Free term model of the byte-slice hash (`solana_program::hash::hashv`) as
the code applies it: `leaf d` stands for `hashv(&[LEAF_PREFIX, d])` (one
prefix byte `0x00`), `node l r` for `hashv(&[NODE_PREFIX, l, r])` (prefix
byte `0x01`), `defaultLeaf` for the `DEFAULT_LEAF` placeholder constant and
`default` for `Hash::default()` (the all-zero hash). Distinct constructors
model collision resistance together with the domain separation the two
prefixes provide. -/
inductive Hash : Type where
  | default : Hash
  | defaultLeaf : Hash
  | leaf (data : List Nat) : Hash
  | node (l r : Hash) : Hash
deriving DecidableEq, Repr

/-- Structural size of a hash term: `node` strictly grows it, every other
constructor is atomic. -/
def Hash.hsize : Hash → Nat
  | .node l r => Hash.hsize l + Hash.hsize r + 1
  | _ => 1

/-- `enum MerkleTreeError` of `src/merkle.rs`. -/
inductive MerkleTreeError : Type where
  | LeafIndexOutOfBounds (msg : String) : MerkleTreeError
  | RootNotComputed (msg : String) : MerkleTreeError
deriving DecidableEq, Repr

deriving instance DecidableEq for Except

/-- `struct MerkleTree` of `src/merkle.rs`: the declared leaf capacity, the
flat level-by-level node array, and the insertion cursor. -/
structure MerkleTree : Type where
  leaf_count : Nat
  nodes : List Hash
  current_leaf_index : Nat
deriving DecidableEq, Repr

namespace MerkleTree

/-- Ceiling base-2 logarithm by structural recursion on fuel (so that the
kernel can evaluate it); `clogAux_eq_clog` proves it equal to `Nat.clog 2`
whenever the fuel covers the argument. -/
def clogAux : Nat → Nat → Nat
  | 0, _ => 0
  | fuel + 1, n => if 2 ≤ n then clogAux fuel ((n + 1) / 2) + 1 else 0

/-- Modelled from the spec: `MerkleTree::calculate_height` computes
`fast_math::log2(leaf_count as f32).ceil() as usize`, where `fast_math` is an
external crate (an approximate `f32` logarithm) whose code is not part of this
repository; the spec defines height as `ceil(log2(leaf_count))` for
`leaf_count > 0` and `0` otherwise, which over naturals is `Nat.clog 2`
(`calculate_height_eq_clog`). -/
def calculate_height (leaf_count : Nat) : Nat :=
  if leaf_count > 0 then clogAux leaf_count leaf_count else 0

/-- `MerkleTree::calculate_next_level_len`. -/
def calculate_next_level_len (current_level_len : Nat) : Nat :=
  if current_level_len > 1 then
    if current_level_len % 2 == 0 then current_level_len / 2
    else (current_level_len + 1) / 2
  else 0

/-- The `while level_leaf_count > 1` loop of `MerkleTree::calculate_max_capacity`:
halve the level length (rounding up) and add it to the running node count. -/
def capacityLoop (level_leaf_count node_count : Nat) : Nat :=
  if h : level_leaf_count > 1 then
    if level_leaf_count % 2 == 0 then
      capacityLoop (level_leaf_count / 2) (node_count + level_leaf_count / 2)
    else
      capacityLoop ((level_leaf_count + 1) / 2)
        (node_count + (level_leaf_count + 1) / 2)
  else node_count
termination_by level_leaf_count
decreasing_by all_goals omega

/-- `MerkleTree::calculate_max_capacity`. -/
def calculate_max_capacity (leaf_count : Nat) : Nat :=
  if leaf_count > 0 then capacityLoop leaf_count leaf_count else 0

/-- `MerkleTree::new`: `leaf_count` leaf slots prefilled with `DEFAULT_LEAF`,
cursor at `0` (the `Vec` capacity reservation has no observable effect). -/
def new (leaf_count : Nat) : MerkleTree :=
  { leaf_count := leaf_count
    nodes := List.replicate leaf_count Hash.defaultLeaf
    current_leaf_index := 0 }

/-- `MerkleTree::insert`: the full-tree check, then `hash_leaf!` (the `leaf`
constructor) written at the cursor (the source writes slot `0` when the cursor
is `0`, otherwise slot `current_leaf_index` — the same slot). Rust returns
`Ok(&mut self)`; the success case returns the updated tree, the error path
returns before any mutation. The write is in bounds for API-built trees
(`current_leaf_index < leaf_count = nodes.len()`), rendered by `List.set`. -/
def insert (t : MerkleTree) (leaf : List Nat) : Except MerkleTreeError MerkleTree :=
  if t.current_leaf_index == t.leaf_count then
    .error (.LeafIndexOutOfBounds
      ("New leaf exceeds size of tree: " ++ toString t.leaf_count))
  else
    let leaf_node := Hash.leaf leaf
    let nodes :=
      if t.current_leaf_index == 0 then t.nodes.set 0 leaf_node
      else t.nodes.set t.current_leaf_index leaf_node
    .ok { leaf_count := t.leaf_count, nodes := nodes,
          current_leaf_index := t.current_leaf_index + 1 }

/-- `MerkleTree::get_value`: `self.nodes[0..self.leaf_count].get(leaf_index)`.
`List.take` renders the slice, which is in bounds for every API-built tree
(`nodes.len() >= leaf_count` from construction on). -/
def get_value (t : MerkleTree) (leaf_index : Nat) : Option Hash :=
  (t.nodes.take t.leaf_count).get? leaf_index

/-- One full pass of the chunk iterator in `MerkleTree::get_root`
(`chunks(2)` plus the `match`): a complete chunk `[l, r]` pushes
`hash_node(l, r)`, a trailing singleton `[l]` pushes `hash_node(l, l)`
(the self-pairing rule), and an empty source pushes nothing. -/
def pairUp : List Hash → List Hash
  | lnode :: rnode :: rest => Hash.node lnode rnode :: pairUp rest
  | [lnode] => [Hash.node lnode lnode]
  | [] => []

/-- Total rendering of the Rust slice `nodes[a..b]`, used where the loop's
index arithmetic keeps the range in bounds. -/
def listSlice (l : List Hash) (a b : Nat) : List Hash := (l.drop a).take (b - a)

/-- Bounds-checked rendering of the Rust slice `nodes[a..b]`: `none` models
the panic raised when `a > b` or `b > nodes.len()`. -/
def listSlice? (l : List Hash) (a b : Nat) : Option (List Hash) :=
  if a ≤ b ∧ b ≤ l.length then some ((l.drop a).take (b - a)) else none

/-- The `while current_level > 0` loop of `MerkleTree::get_root`, with
`current_level` as fuel. One step drains the current chunk source into
`level_cache` (`pairUp`), appends the cache, moves the level boundary
(`prev_level_len`, `current_level_len`) forward and re-chunks the slice
`nodes[prev_level_len..prev_level_len + current_level_len]`. The loop's
arithmetic keeps that range in bounds (each appended level fills the array
exactly up to the next boundary), so the total `listSlice` renders it. -/
def rootLoopAux : Nat → List Hash → Nat → Nat → List Hash → List Hash
  | 0, nodes, _, _, _ => nodes
  | current_level + 1, nodes, prev_level_len, current_level_len, pairsSrc =>
    let nodes' := nodes ++ pairUp pairsSrc
    let prev' := prev_level_len + current_level_len
    let cur' := calculate_next_level_len current_level_len
    rootLoopAux current_level nodes' prev' cur' (listSlice nodes' prev' (prev' + cur'))

/-- `MerkleTree::get_root`: run the level-building loop (the first chunk
source is the whole node array), return the updated tree and
`self.nodes.iter().last()`. -/
def get_root (t : MerkleTree) : MerkleTree × Option Hash :=
  let height := calculate_height t.leaf_count
  let nodes' := rootLoopAux height t.nodes 0 t.leaf_count t.nodes
  ({ leaf_count := t.leaf_count, nodes := nodes',
     current_leaf_index := t.current_leaf_index }, nodes'.getLast?)

/-- The `while current_level > 0` loop of `MerkleTree::get_opening`, with
`current_level` as fuel. Each iteration first pushes the sibling recorded by
the previous one (`left_node` then `right_node`; at most one is `some`), then
records the current level's sibling: an even index takes the node at
`index + 1` unless it is the last node of the level (then the node itself),
an odd index takes the node at `index - 1`. The index halves, the boundary
moves, and the next level's slice is taken — its bounds check (`listSlice?`)
models the Rust slice panic. The in-level reads stay below
`current_level_len`, the slice's length, so `getD` renders them. -/
def openingLoop (nodes : List Hash) :
    Nat → Nat → Nat → List Hash → Nat → Option Hash → Option Hash → List Hash →
    Option (List Hash)
  | 0, _, _, _, _, _, _, path => some path
  | current_level + 1, current_index, current_level_len, level_nodes,
      prev_level_len, left_node, right_node, path =>
    let path1 := match left_node with | some lnode => path ++ [lnode] | none => path
    let path2 := match right_node with | some rnode => path1 ++ [rnode] | none => path1
    let pending : Option Hash × Option Hash :=
      if current_index % 2 == 0 then
        if current_index + 1 < current_level_len then
          (none, some (level_nodes.getD (current_index + 1) Hash.default))
        else
          (none, some (level_nodes.getD current_index Hash.default))
      else
        (some (level_nodes.getD (current_index - 1) Hash.default), none)
    let current_index' := current_index / 2
    let prev' := prev_level_len + current_level_len
    let cur' := calculate_next_level_len current_level_len
    match listSlice? nodes prev' (prev' + cur') with
    | none => none
    | some next_nodes =>
      openingLoop nodes current_level current_index' cur' next_nodes prev'
        pending.1 pending.2 path2

/-- `MerkleTree::get_opening`: the bounds check, then the sibling walk from
`current_level = height + 1` with `&self.nodes[0..self.leaf_count]` as the
first level; `none` models a slice panic. -/
def get_opening (t : MerkleTree) (leaf_index : Nat) :
    Option (Except MerkleTreeError (List Hash)) :=
  if leaf_index ≥ t.leaf_count then
    some (.error (.LeafIndexOutOfBounds
      ("Tree has " ++ toString t.leaf_count ++ " leaves but index given was "
        ++ toString leaf_index)))
  else
    match listSlice? t.nodes 0 t.leaf_count with
    | none => none
    | some level0 =>
      (openingLoop t.nodes (calculate_height t.leaf_count + 1) leaf_index
        t.leaf_count level0 0 none none []).map .ok

/-- `MerkleTree::verify_opening`: the bounds check, then, starting from
`Hash::default()`, the enumerated fold in which the opening element is always
the left `hash_node` operand — the first element is paired with the stored
leaf `self.nodes[leaf_index]`, every later one with the running value; finally
`Ok(computed_root == root)`. `none` models the panic of the leaf read (in
bounds for API-built trees). -/
def verify_opening (t : MerkleTree) (opening : List Hash) (root : Hash)
    (leaf_index : Nat) : Option (Except MerkleTreeError Bool) :=
  if leaf_index ≥ t.leaf_count then
    some (.error (.LeafIndexOutOfBounds
      ("Tree has " ++ toString t.leaf_count ++ " leaves but index given was "
        ++ toString leaf_index)))
  else
    match t.nodes.get? leaf_index with
    | none => none
    | some leaf =>
      let computed_root := opening.enum.foldl
        (fun computed_root p =>
          if p.1 == 0 then Hash.node p.2 leaf else Hash.node p.2 computed_root)
        Hash.default
      some (.ok (decide (computed_root = root)))

/-- Folds `insert` over a list of leaf byte strings, stopping at the first
error (the fill loop of the repository's tests). -/
def insertAll (t : MerkleTree) : List (List Nat) → Except MerkleTreeError MerkleTree
  | [] => .ok t
  | d :: ds =>
    match insert t d with
    | .ok t' => insertAll t' ds
    | .error e => .error e

end MerkleTree

/-- Level `k` of the tree over leaf row `L`: `k` applications of the pairing
pass. -/
def levelIter (L : List Hash) : Nat → List Hash
  | 0 => L
  | k + 1 => MerkleTree.pairUp (levelIter L k)

/-- Concatenation of levels `1` to `k` above the row `L`. -/
def tailLevels (L : List Hash) : Nat → List Hash
  | 0 => []
  | k + 1 => MerkleTree.pairUp L ++ tailLevels (MerkleTree.pairUp L) k

/-- `k`-fold halving (rounding up) of a level length. -/
def halfIter : Nat → Nat → Nat
  | 0, n => n
  | k + 1, n => halfIter k ((n + 1) / 2)

/-- Number of `calculate_next_level_len` steps that reduce `n` to `1`
(`0` for `n ≤ 1`). -/
def halvingSteps (n : Nat) : Nat :=
  if _h : n ≤ 1 then 0
  else 1 + halvingSteps (MerkleTree.calculate_next_level_len n)
termination_by n
decreasing_by
  simp only [MerkleTree.calculate_next_level_len, gt_iff_lt]
  split
  · split <;> omega
  · omega

/-- Sum of every level length reached from `n` by repeated
`calculate_next_level_len`, the leaf level included (`0` for `n = 0`). -/
def levelSum (n : Nat) : Nat :=
  if _h : n ≤ 1 then n
  else n + levelSum (MerkleTree.calculate_next_level_len n)
termination_by n
decreasing_by
  simp only [MerkleTree.calculate_next_level_len, gt_iff_lt]
  split
  · split <;> omega
  · omega

/-- The sibling the opening walk records at one level: an even index pairs
with `index + 1` unless it is the last node of the level (then with itself),
an odd index pairs with `index - 1`. -/
def siblingAt (i : Nat) (lvl : List Hash) : Hash :=
  if i % 2 == 0 then
    if i + 1 < lvl.length then lvl.getD (i + 1) Hash.default
    else lvl.getD i Hash.default
  else lvl.getD (i - 1) Hash.default

/-- The opening as a sibling per level: `s` levels starting from index `i`
in row `lvl`. -/
def openingSpec : Nat → Nat → List Hash → List Hash
  | 0, _, _ => []
  | s + 1, i, lvl => siblingAt i lvl :: openingSpec s (i / 2) (MerkleTree.pairUp lvl)

/-- The verification fold written out: `Hash.default` on an empty opening,
otherwise the first element paired as left operand with the leaf and every
later element folded as left operand over the running value. -/
def openingFold (leaf : Hash) : List Hash → Hash
  | [] => Hash.default
  | o :: rest =>
    rest.foldl (fun computed item => Hash.node item computed) (Hash.node o leaf)

/-- The pending siblings of the opening walk, in push order (left first). -/
def pendList (a b : Option Hash) : List Hash :=
  (match a with | some lnode => [lnode] | none => []) ++
    (match b with | some rnode => [rnode] | none => [])

/-- Trees the public constructors build: `new` followed by any number of
successful `insert`s (root computation then maps such a tree through
`get_root`). -/
inductive Reachable : MerkleTree → Prop where
  | new (n : Nat) : Reachable (MerkleTree.new n)
  | insert (t : MerkleTree) (d : List Nat) (t' : MerkleTree) :
      Reachable t → MerkleTree.insert t d = .ok t' → Reachable t'

/-! ### Arithmetic of heights, level lengths and capacities -/

theorem next_level_len_eq {n : Nat} (h : 1 < n) :
    MerkleTree.calculate_next_level_len n = (n + 1) / 2 := by
  simp only [MerkleTree.calculate_next_level_len, gt_iff_lt, h, if_true]
  split
  · next he => simp only [beq_iff_eq] at he; omega
  · rfl

theorem next_level_len_lt {n : Nat} (h : 1 < n) :
    MerkleTree.calculate_next_level_len n < n := by
  rw [next_level_len_eq h]; omega

theorem next_level_len_of_le_one {n : Nat} (h : n ≤ 1) :
    MerkleTree.calculate_next_level_len n = 0 := by
  simp only [MerkleTree.calculate_next_level_len, gt_iff_lt]
  rw [if_neg (by omega)]

theorem clog2_step {n : Nat} (hn : 2 ≤ n) :
    Nat.clog 2 n = Nat.clog 2 ((n + 1) / 2) + 1 := by
  rw [Nat.clog_of_two_le (by norm_num) hn,
    show n + 2 - 1 = n + 1 from by omega]

theorem clogAux_eq_clog : ∀ (fuel n : Nat), n ≤ fuel →
    MerkleTree.clogAux fuel n = Nat.clog 2 n := by
  intro fuel
  induction fuel with
  | zero =>
    intro n hn
    interval_cases n
    simp [MerkleTree.clogAux]
  | succ fuel ih =>
    intro n hn
    by_cases h2 : 2 ≤ n
    · rw [MerkleTree.clogAux, if_pos h2, ih ((n + 1) / 2) (by omega),
        ← clog2_step h2]
    · rw [MerkleTree.clogAux, if_neg h2, Nat.clog_of_right_le_one (by omega)]

theorem calculate_height_eq_clog (n : Nat) :
    MerkleTree.calculate_height n = Nat.clog 2 n := by
  by_cases h : 0 < n
  · rw [MerkleTree.calculate_height, if_pos h, clogAux_eq_clog n n le_rfl]
  · have : n = 0 := by omega
    subst this
    simp [MerkleTree.calculate_height]

theorem clog_eq_halvingSteps : ∀ n : Nat, Nat.clog 2 n = halvingSteps n := by
  intro n
  induction n using Nat.strong_induction_on with
  | _ n ih =>
    by_cases h1 : n ≤ 1
    · rw [halvingSteps, dif_pos h1, Nat.clog_of_right_le_one h1]
    · have h2 : 2 ≤ n := by omega
      rw [halvingSteps, dif_neg h1, next_level_len_eq (by omega),
        clog2_step h2, ih ((n + 1) / 2) (by omega)]
      omega

theorem capacityLoop_levelSum : ∀ m acc : Nat,
    MerkleTree.capacityLoop m acc + m = acc + levelSum m := by
  intro m
  induction m using Nat.strong_induction_on with
  | _ m ih =>
    intro acc
    by_cases h1 : 1 < m
    · have hnext : MerkleTree.calculate_next_level_len m = (m + 1) / 2 :=
        next_level_len_eq h1
      have hsum : levelSum m = m + levelSum ((m + 1) / 2) := by
        rw [levelSum, dif_neg (by omega), hnext]
      by_cases he : m % 2 = 0
      · have hcap : MerkleTree.capacityLoop m acc
            = MerkleTree.capacityLoop (m / 2) (acc + m / 2) := by
          rw [MerkleTree.capacityLoop, dif_pos h1, if_pos (by simpa using he)]
        have hhalf : m / 2 = (m + 1) / 2 := by omega
        have := ih (m / 2) (by omega) (acc + m / 2)
        rw [hcap, hsum, ← hhalf]
        omega
      · have hcap : MerkleTree.capacityLoop m acc
            = MerkleTree.capacityLoop ((m + 1) / 2) (acc + (m + 1) / 2) := by
          rw [MerkleTree.capacityLoop, dif_pos h1,
            if_neg (by simpa using he)]
        have := ih ((m + 1) / 2) (by omega) (acc + (m + 1) / 2)
        rw [hcap, hsum]
        omega
    · rw [MerkleTree.capacityLoop, dif_neg h1, levelSum, dif_pos (by omega)]

/-! ### Levels above a leaf row -/

theorem pairUp_length : ∀ l : List Hash,
    (MerkleTree.pairUp l).length = (l.length + 1) / 2 := by
  intro l
  induction l using MerkleTree.pairUp.induct with
  | case1 lnode rnode rest ih =>
    simp only [MerkleTree.pairUp, List.length_cons, ih]
    omega
  | case2 lnode => simp [MerkleTree.pairUp]
  | case3 => simp [MerkleTree.pairUp]

theorem pairUp_mem : ∀ (l : List Hash) (x : Hash), x ∈ MerkleTree.pairUp l →
    ∃ a ∈ l, ∃ b ∈ l, x = Hash.node a b := by
  intro l
  induction l using MerkleTree.pairUp.induct with
  | case1 lnode rnode rest ih =>
    intro x hx
    rcases List.mem_cons.mp hx with he | ht
    · exact ⟨lnode, by simp, rnode, by simp, he⟩
    · obtain ⟨a, ha, b, hb, he⟩ := ih x ht
      exact ⟨a, by simp [ha], b, by simp [hb], he⟩
  | case2 lnode =>
    intro x hx
    rcases List.mem_singleton.mp hx with he
    exact ⟨lnode, by simp, lnode, by simp, he⟩
  | case3 =>
    intro x hx
    simp [MerkleTree.pairUp] at hx

theorem levelIter_shift (L : List Hash) :
    ∀ k, levelIter (MerkleTree.pairUp L) k = levelIter L (k + 1) := by
  intro k
  induction k with
  | zero => rfl
  | succ k ih => rw [levelIter, ih]; rfl

theorem halfIter_succ_out (k : Nat) : ∀ n : Nat,
    halfIter (k + 1) n = (halfIter k n + 1) / 2 := by
  induction k with
  | zero => intro n; rfl
  | succ k ih =>
    intro n
    have h1 : halfIter (k + 1 + 1) n = halfIter (k + 1) ((n + 1) / 2) := rfl
    have h2 : halfIter (k + 1) n = halfIter k ((n + 1) / 2) := rfl
    rw [h1, ih ((n + 1) / 2), h2]

theorem levelIter_length (L : List Hash) : ∀ k : Nat,
    (levelIter L k).length = halfIter k L.length := by
  intro k
  induction k with
  | zero => rfl
  | succ k ih =>
    rw [levelIter, pairUp_length, ih, halfIter_succ_out]

theorem tailLevels_succ_right (k : Nat) : ∀ L : List Hash,
    tailLevels L (k + 1) = tailLevels L k ++ levelIter L (k + 1) := by
  induction k with
  | zero => intro L; simp [tailLevels, levelIter]
  | succ k ih =>
    intro L
    calc tailLevels L (k + 1 + 1)
        = MerkleTree.pairUp L ++ tailLevels (MerkleTree.pairUp L) (k + 1) := rfl
      _ = MerkleTree.pairUp L
            ++ (tailLevels (MerkleTree.pairUp L) k
                ++ levelIter (MerkleTree.pairUp L) (k + 1)) := by
            rw [ih (MerkleTree.pairUp L)]
      _ = (MerkleTree.pairUp L ++ tailLevels (MerkleTree.pairUp L) k)
            ++ levelIter L (k + 1 + 1) := by
            rw [levelIter_shift, List.append_assoc]
      _ = tailLevels L (k + 1) ++ levelIter L (k + 1 + 1) := rfl

theorem halfIter_clog : ∀ n : Nat, 1 ≤ n →
    halfIter (Nat.clog 2 n) n = 1 ∧ (∀ j, j < Nat.clog 2 n → 2 ≤ halfIter j n) := by
  intro n
  induction n using Nat.strong_induction_on with
  | _ n ih =>
    intro hn
    by_cases h2 : 2 ≤ n
    · obtain ⟨ha, hb⟩ := ih ((n + 1) / 2) (by omega) (by omega)
      rw [clog2_step h2]
      refine ⟨ha, ?_⟩
      intro j hj
      cases j with
      | zero => exact h2
      | succ j => exact hb j (by omega)
    · have hn1 : n = 1 := by omega
      subst hn1
      rw [Nat.clog_one_right]
      exact ⟨rfl, by omega⟩

/-! ### What the root-building loop appends -/

theorem rootLoopAux_spec : ∀ (fuel : Nat) (S N : List Hash) (p : Nat),
    N.length = p + S.length →
    N.drop p = S →
    (∀ j, j < fuel → 2 ≤ (levelIter S j).length) →
    MerkleTree.rootLoopAux fuel N p S.length S = N ++ tailLevels S fuel := by
  intro fuel
  induction fuel with
  | zero =>
    intro S N p _ _ _
    simp [MerkleTree.rootLoopAux, tailLevels]
  | succ fuel ih =>
    intro S N p hlen hdrop hcond
    have hS2 : 2 ≤ S.length := by
      have := hcond 0 (by omega)
      simpa [levelIter] using this
    have hnext : MerkleTree.calculate_next_level_len S.length
        = (MerkleTree.pairUp S).length := by
      rw [next_level_len_eq hS2, pairUp_length]
    have hdrop' : (N ++ MerkleTree.pairUp S).drop (p + S.length)
        = MerkleTree.pairUp S := List.drop_left' hlen
    have hslice : MerkleTree.listSlice (N ++ MerkleTree.pairUp S) (p + S.length)
        (p + S.length + (MerkleTree.pairUp S).length) = MerkleTree.pairUp S := by
      rw [MerkleTree.listSlice, hdrop', Nat.add_sub_cancel_left, List.take_length]
    rw [MerkleTree.rootLoopAux, hnext, hslice]
    rw [ih (MerkleTree.pairUp S) (N ++ MerkleTree.pairUp S) (p + S.length)
      (by simp [hlen]) hdrop'
      (fun j hj => by rw [levelIter_shift]; exact hcond (j + 1) (by omega))]
    rw [List.append_assoc]
    rfl

theorem get_root_last (t : MerkleTree) :
    (MerkleTree.get_root t).2 = (MerkleTree.get_root t).1.nodes.getLast? := rfl

theorem get_root_nodes (t : MerkleTree) (hlen : t.nodes.length = t.leaf_count)
    (hn : 1 ≤ t.leaf_count) :
    (MerkleTree.get_root t).1.nodes
      = t.nodes ++ tailLevels t.nodes (MerkleTree.calculate_height t.leaf_count) := by
  have hcond : ∀ j, j < MerkleTree.calculate_height t.leaf_count →
      2 ≤ (levelIter t.nodes j).length := by
    intro j hj
    rw [levelIter_length, hlen]
    rw [calculate_height_eq_clog] at hj
    exact (halfIter_clog t.leaf_count hn).2 j hj
  have hmain := rootLoopAux_spec (MerkleTree.calculate_height t.leaf_count)
    t.nodes t.nodes 0 (by omega) rfl hcond
  rw [hlen] at hmain
  exact hmain

theorem get_root_root_eq (t : MerkleTree) (hlen : t.nodes.length = t.leaf_count)
    (hn : 1 ≤ t.leaf_count) :
    (MerkleTree.get_root t).2
      = some ((levelIter t.nodes (MerkleTree.calculate_height t.leaf_count)).headD
          Hash.default) := by
  have htop : (levelIter t.nodes
      (MerkleTree.calculate_height t.leaf_count)).length = 1 := by
    rw [levelIter_length, hlen, calculate_height_eq_clog]
    exact (halfIter_clog t.leaf_count hn).1
  obtain ⟨r, hr⟩ := List.length_eq_one.mp htop
  have hnodes := get_root_nodes t hlen hn
  rw [get_root_last, hnodes, hr]
  cases hH : MerkleTree.calculate_height t.leaf_count with
  | zero =>
    rw [hH] at hr
    simp only [levelIter] at hr
    simp [tailLevels, hr]
  | succ k =>
    rw [hH] at hr
    rw [tailLevels_succ_right, hr, ← List.append_assoc, List.getLast?_concat]
    rfl

/-! ### What the opening walk collects -/

theorem openingLoop_spec : ∀ (s : Nat) (lvl : List Hash) (i : Nat) (N : List Hash)
    (p : Nat) (lN rN : Option Hash) (path : List Hash),
    i < lvl.length →
    p ≤ N.length →
    N.drop p = lvl ++ tailLevels lvl s →
    (∀ j, j < s → 2 ≤ (levelIter lvl j).length) →
    (levelIter lvl s).length = 1 →
    MerkleTree.openingLoop N (s + 1) i lvl.length lvl p lN rN path
      = some (path ++ pendList lN rN ++ openingSpec s i lvl) := by
  intro s
  induction s with
  | zero =>
    intro lvl i N p lN rN path hi hp hdrop hcond htop
    simp only [levelIter] at htop
    have hN : N.length = p + 1 := by
      have hlen := congrArg List.length hdrop
      simp only [List.length_drop, List.length_append, htop] at hlen
      have : (tailLevels lvl 0).length = 0 := rfl
      omega
    have hnext1 : MerkleTree.calculate_next_level_len 1 = 0 := by decide
    have hslice : MerkleTree.listSlice? N (p + 1) (p + 1 + 0) = some [] := by
      rw [MerkleTree.listSlice?, if_pos ⟨by omega, by omega⟩]
      simp
    cases lN <;> cases rN <;>
      · simp only [MerkleTree.openingLoop, htop, hnext1, hslice, openingSpec,
          pendList, List.append_nil, List.nil_append, List.append_assoc]
  | succ s ih =>
    intro lvl i N p lN rN path hi hp hdrop hcond htop
    have hlvl2 : 2 ≤ lvl.length := by
      have := hcond 0 (by omega)
      simpa [levelIter] using this
    have hP1 : 1 ≤ (MerkleTree.pairUp lvl).length := by
      rw [pairUp_length]; omega
    have hnext : MerkleTree.calculate_next_level_len lvl.length
        = (MerkleTree.pairUp lvl).length := by
      rw [next_level_len_eq hlvl2, pairUp_length]
    have hdrop2 : N.drop (p + lvl.length)
        = MerkleTree.pairUp lvl ++ tailLevels (MerkleTree.pairUp lvl) s := by
      have h1 : N.drop (p + lvl.length) = (N.drop p).drop lvl.length := by
        rw [List.drop_drop, Nat.add_comm]
      rw [h1, hdrop, List.drop_left]
      rfl
    have hNlen : p + lvl.length + (MerkleTree.pairUp lvl).length ≤ N.length := by
      have h1 := congrArg List.length hdrop2
      simp only [List.length_drop, List.length_append] at h1
      omega
    have hsub : p + lvl.length + (MerkleTree.pairUp lvl).length - (p + lvl.length)
        = (MerkleTree.pairUp lvl).length := by omega
    have hslice : MerkleTree.listSlice? N (p + lvl.length)
        (p + lvl.length + (MerkleTree.pairUp lvl).length)
        = some (MerkleTree.pairUp lvl) := by
      rw [MerkleTree.listSlice?, if_pos ⟨by omega, hNlen⟩, hsub, hdrop2,
        List.take_left]
    have hrec := ih (MerkleTree.pairUp lvl) (i / 2) N (p + lvl.length)
    have hi2 : i / 2 < (MerkleTree.pairUp lvl).length := by
      rw [pairUp_length]; omega
    have hcond2 : ∀ j, j < s → 2 ≤ (levelIter (MerkleTree.pairUp lvl) j).length := by
      intro j hj
      rw [levelIter_shift]
      exact hcond (j + 1) (by omega)
    have htop2 : (levelIter (MerkleTree.pairUp lvl) s).length = 1 := by
      rw [levelIter_shift]
      exact htop
    have hspec : openingSpec (s + 1) i lvl
        = siblingAt i lvl :: openingSpec s (i / 2) (MerkleTree.pairUp lvl) := rfl
    rw [MerkleTree.openingLoop.eq_def]
    simp only [hnext, hslice]
    rw [hrec _ _ _ hi2 (by omega) hdrop2 hcond2 htop2, hspec]
    by_cases hpar : i % 2 = 0
    · by_cases hlast : i + 1 < lvl.length
      · cases lN <;> cases rN <;>
          simp [pendList, siblingAt, hpar, hlast, List.append_assoc]
      · cases lN <;> cases rN <;>
          simp [pendList, siblingAt, hpar, hlast, List.append_assoc]
    · cases lN <;> cases rN <;>
        simp [pendList, siblingAt, hpar, List.append_assoc]

theorem level_length_conds (t : MerkleTree) (hlen : t.nodes.length = t.leaf_count)
    (hn : 1 ≤ t.leaf_count) :
    (∀ j, j < MerkleTree.calculate_height t.leaf_count →
        2 ≤ (levelIter t.nodes j).length) ∧
    (levelIter t.nodes (MerkleTree.calculate_height t.leaf_count)).length = 1 := by
  constructor
  · intro j hj
    rw [levelIter_length, hlen]
    rw [calculate_height_eq_clog] at hj
    exact (halfIter_clog t.leaf_count hn).2 j hj
  · rw [levelIter_length, hlen, calculate_height_eq_clog]
    exact (halfIter_clog t.leaf_count hn).1

theorem get_opening_rooted_eq (t : MerkleTree) (i : Nat)
    (hlen : t.nodes.length = t.leaf_count) (hi : i < t.leaf_count) :
    MerkleTree.get_opening ((MerkleTree.get_root t).1) i
      = some (.ok (openingSpec (MerkleTree.calculate_height t.leaf_count) i
          t.nodes)) := by
  have hn : 1 ≤ t.leaf_count := by omega
  obtain ⟨hcond, htop⟩ := level_length_conds t hlen hn
  have hnodes := get_root_nodes t hlen hn
  have hroot_lc : ((MerkleTree.get_root t).1).leaf_count = t.leaf_count := rfl
  have hNlen : t.leaf_count ≤ ((MerkleTree.get_root t).1).nodes.length := by
    rw [hnodes, List.length_append, hlen]
    omega
  have hslice0 : MerkleTree.listSlice? ((MerkleTree.get_root t).1).nodes 0
      t.leaf_count = some t.nodes := by
    rw [MerkleTree.listSlice?, if_pos ⟨Nat.zero_le _, hNlen⟩, List.drop_zero,
      Nat.sub_zero, hnodes, List.take_left' hlen]
  have hdrop0 : ((MerkleTree.get_root t).1).nodes.drop 0
      = t.nodes ++ tailLevels t.nodes (MerkleTree.calculate_height t.leaf_count) := by
    rw [List.drop_zero, hnodes]
  have hloop := openingLoop_spec (MerkleTree.calculate_height t.leaf_count)
    t.nodes i ((MerkleTree.get_root t).1).nodes 0 none none []
    (by rw [hlen]; exact hi) (Nat.zero_le _) hdrop0 hcond htop
  rw [hlen] at hloop
  rw [MerkleTree.get_opening, hroot_lc, if_neg (by omega)]
  simp only [hslice0, hloop, pendList, List.nil_append, List.append_nil,
    Option.map_some']

theorem openingSpec_length : ∀ (s i : Nat) (lvl : List Hash),
    (openingSpec s i lvl).length = s := by
  intro s
  induction s with
  | zero => intro i lvl; rfl
  | succ s ih => intro i lvl; simp [openingSpec, ih]

theorem getD_mem (l : List Hash) (k : Nat) (d : Hash) (h : k < l.length) :
    l.getD k d ∈ l := by
  rw [List.getD_eq_getElem?_getD, List.getElem?_eq_getElem h]
  simp only [Option.getD_some]
  exact List.getElem_mem h

theorem siblingAt_mem (i : Nat) (lvl : List Hash) (hi : i < lvl.length) :
    siblingAt i lvl ∈ lvl := by
  unfold siblingAt
  split
  · split
    · next hlast => exact getD_mem _ _ _ hlast
    · exact getD_mem _ _ _ hi
  · exact getD_mem _ _ _ (by omega)

theorem openingSpec_mem : ∀ (s i : Nat) (lvl : List Hash), i < lvl.length →
    ∀ x ∈ openingSpec s i lvl, ∃ j, j < s ∧ x ∈ levelIter lvl j := by
  intro s
  induction s with
  | zero =>
    intro i lvl _ x hx
    simp [openingSpec] at hx
  | succ s ih =>
    intro i lvl hi x hx
    rw [openingSpec] at hx
    rcases List.mem_cons.mp hx with he | ht
    · exact ⟨0, by omega, he ▸ siblingAt_mem i lvl hi⟩
    · have hi2 : i / 2 < (MerkleTree.pairUp lvl).length := by
        rw [pairUp_length]; omega
      obtain ⟨j, hj, hmem⟩ := ih (i / 2) (MerkleTree.pairUp lvl) hi2 x ht
      rw [levelIter_shift] at hmem
      exact ⟨j + 1, by omega, hmem⟩

theorem levelIter_hsize (L : List Hash) (hat : ∀ x ∈ L, Hash.hsize x = 1) :
    ∀ (k : Nat) (x : Hash), x ∈ levelIter L k → Hash.hsize x = 2 ^ (k + 1) - 1 := by
  intro k
  induction k with
  | zero =>
    intro x hx
    have := hat x hx
    simpa [levelIter] using this
  | succ k ih =>
    intro x hx
    rw [levelIter] at hx
    obtain ⟨a, ha, b, hb, he⟩ := pairUp_mem _ x hx
    subst he
    have hsz : Hash.hsize (Hash.node a b) = Hash.hsize a + Hash.hsize b + 1 := rfl
    rw [hsz, ih a ha, ih b hb]
    have h1 : 1 ≤ 2 ^ (k + 1) := Nat.one_le_two_pow
    have h2 : 2 ^ (k + 1 + 1) = 2 ^ (k + 1) * 2 := pow_succ 2 (k + 1)
    omega

/-! ### Invariants of API-built trees -/

theorem reachable_len (t : MerkleTree) (h : Reachable t) :
    t.nodes.length = t.leaf_count := by
  induction h with
  | new n => simp [MerkleTree.new]
  | insert t d t' _ hok ih =>
    rw [MerkleTree.insert] at hok
    by_cases hfull : t.current_leaf_index == t.leaf_count
    · rw [if_pos hfull] at hok
      simp at hok
    · rw [if_neg hfull] at hok
      obtain rfl := Except.ok.inj hok
      by_cases h0 : t.current_leaf_index == 0 <;>
        simp [h0, List.length_set, ih]

theorem reachable_atomic (t : MerkleTree) (h : Reachable t) :
    ∀ x ∈ t.nodes, Hash.hsize x = 1 := by
  induction h with
  | new n =>
    intro x hx
    simp only [MerkleTree.new] at hx
    rw [List.eq_of_mem_replicate hx]
    rfl
  | insert t d t' _ hok ih =>
    rw [MerkleTree.insert] at hok
    by_cases hfull : t.current_leaf_index == t.leaf_count
    · rw [if_pos hfull] at hok
      simp at hok
    · rw [if_neg hfull] at hok
      obtain rfl := Except.ok.inj hok
      intro x hx
      by_cases h0 : t.current_leaf_index == 0 <;>
        · simp only [h0, if_true, if_false] at hx
          first
          | (rcases List.mem_or_eq_of_mem_set hx with hmem | hleaf
             · exact ih x hmem
             · rw [hleaf]; rfl)

/-! ### The verification fold -/

theorem enumFrom_foldl_node (leaf : Hash) : ∀ (o : List Hash) (k : Nat), 1 ≤ k →
    ∀ acc : Hash,
    (List.enumFrom k o).foldl
      (fun computed p => if p.1 == 0 then Hash.node p.2 leaf
        else Hash.node p.2 computed) acc
      = o.foldl (fun computed item => Hash.node item computed) acc := by
  intro o
  induction o with
  | nil => intro k _ acc; rfl
  | cons x rest ih =>
    intro k hk acc
    have hk0 : (k == 0) = false := by simp; omega
    simp only [List.enumFrom_cons, List.foldl_cons, hk0, Bool.false_eq_true,
      if_false]
    exact ih (k + 1) (by omega) (Hash.node x acc)

theorem enum_foldl_eq (leaf : Hash) (o : List Hash) :
    o.enum.foldl (fun computed p => if p.1 == 0 then Hash.node p.2 leaf
      else Hash.node p.2 computed) Hash.default = openingFold leaf o := by
  cases o with
  | nil => rfl
  | cons x rest =>
    rw [openingFold]
    have he : (x :: rest).enum = (0, x) :: rest.enumFrom 1 := rfl
    rw [he, List.foldl_cons]
    show (rest.enumFrom 1).foldl _ (Hash.node x leaf) = _
    exact enumFrom_foldl_node leaf rest 1 (by omega) (Hash.node x leaf)

theorem verify_opening_eq (t : MerkleTree) (o : List Hash) (r : Hash) (i : Nat)
    (h1 : i < t.leaf_count) (h2 : i < t.nodes.length) :
    MerkleTree.verify_opening t o r i
      = some (.ok (decide (openingFold (t.nodes.getD i Hash.default) o = r))) := by
  have hget : t.nodes.get? i = some (t.nodes.getD i Hash.default) := by
    rw [List.getD_eq_getElem?_getD, List.get?_eq_getElem?,
      List.getElem?_eq_getElem h2]
    simp
  rw [MerkleTree.verify_opening, if_neg (by omega)]
  simp only [hget]
  rw [enum_foldl_eq]

/-! ### The claims -/

/-- C1 evaluated at the failing input: the filled 2-leaf tree over leaves
`[97]` and `[98]`. The opening for leaf 0 is its right sibling, but
`verify_opening` folds every opening element as the left `hash_node` operand,
recomputing `hash_node(leaf1, leaf0)` instead of the root
`hash_node(leaf0, leaf1)`, so the round trip `verify_opening(get_opening(0),
root, 0)` returns `Ok(false)`, not `Ok(true)` as the round-trip law demands. -/
theorem roundtrip_fold_mismatch_two_leaves :
    MerkleTree.insertAll (MerkleTree.new 2) [[97], [98]]
      = .ok ⟨2, [Hash.leaf [97], Hash.leaf [98]], 2⟩ ∧
    (MerkleTree.get_root ⟨2, [Hash.leaf [97], Hash.leaf [98]], 2⟩).2
      = some (Hash.node (Hash.leaf [97]) (Hash.leaf [98])) ∧
    MerkleTree.get_opening
        (MerkleTree.get_root ⟨2, [Hash.leaf [97], Hash.leaf [98]], 2⟩).1 0
      = some (.ok [Hash.leaf [98]]) ∧
    MerkleTree.verify_opening
        (MerkleTree.get_root ⟨2, [Hash.leaf [97], Hash.leaf [98]], 2⟩).1
        [Hash.leaf [98]] (Hash.node (Hash.leaf [97]) (Hash.leaf [98])) 0
      = some (.ok false) := by
  decide

/-- C2 evaluated at the failing input: the filled single-leaf tree over leaf
`[97]`. Height is `0`, the opening is empty and the root is the leaf's own
hash, but `verify_opening` with the empty opening leaves `computed_root` at
`Hash::default()` without ever reading the leaf, so it answers `Ok(false)`
against the true root and `Ok(true)` exactly against the all-zero default
hash — not the comparison with the leaf's hash the claim describes. -/
theorem empty_opening_compares_default_hash :
    MerkleTree.calculate_height 1 = 0 ∧
    (MerkleTree.get_root ⟨1, [Hash.leaf [97]], 1⟩).2 = some (Hash.leaf [97]) ∧
    MerkleTree.get_opening (MerkleTree.get_root ⟨1, [Hash.leaf [97]], 1⟩).1 0
      = some (.ok []) ∧
    MerkleTree.verify_opening (MerkleTree.get_root ⟨1, [Hash.leaf [97]], 1⟩).1
        [] (Hash.leaf [97]) 0 = some (.ok false) ∧
    MerkleTree.verify_opening (MerkleTree.get_root ⟨1, [Hash.leaf [97]], 1⟩).1
        [] Hash.default 0 = some (.ok true) := by
  decide

/-- C3: for a valid leaf index, `verify_opening` is `Ok` of the comparison of
the claimed root with `openingFold`, the fold that pairs `opening[0]` with
the stored leaf as `hash_node(opening[0], leaf)` and every later element as
`hash_node(opening[i], computed)` — the opening element is always the left
operand, never the right. The bound `i < nodes.len()` holds on every
API-built tree (`leaf_count = nodes.len()` before rooting, `≤` after). -/
theorem verify_folds_opening_left (t : MerkleTree) (o : List Hash) (r : Hash)
    (i : Nat) (h1 : i < t.leaf_count) (h2 : i < t.nodes.length) :
    MerkleTree.verify_opening t o r i
      = some (.ok (decide (openingFold (t.nodes.getD i Hash.default) o = r))) :=
  verify_opening_eq t o r i h1 h2

/-- Witness for C3 at the 1-leaf tree, empty opening and default root. -/
theorem verify_folds_opening_left_witness :
    MerkleTree.verify_opening ⟨1, [Hash.leaf [97]], 1⟩ [] Hash.default 0
      = some (.ok (decide (openingFold
          ((⟨1, [Hash.leaf [97]], 1⟩ : MerkleTree).nodes.getD 0 Hash.default)
          [] = Hash.default))) :=
  verify_folds_opening_left ⟨1, [Hash.leaf [97]], 1⟩ [] Hash.default 0
    (by decide) (by decide)

/-- C4 counterexample: the filled, rooted 3-leaf tree over `[97]`, `[98]`,
`[99]`. Leaf 2 is the last node of an odd-length level, so the self-pairing
rule records the leaf itself as its sibling: the opening for index 2
contains `Hash.leaf [99]`, the leaf's own stored hash, contradicting
"contains neither the leaf's own hash nor the root". -/
theorem opening_contains_own_leaf_hash :
    MerkleTree.get_opening
        (MerkleTree.get_root ⟨3, [Hash.leaf [97], Hash.leaf [98],
          Hash.leaf [99]], 3⟩).1 2
      = some (.ok [Hash.leaf [99],
          Hash.node (Hash.leaf [97]) (Hash.leaf [98])]) ∧
    MerkleTree.get_value ⟨3, [Hash.leaf [97], Hash.leaf [98],
        Hash.leaf [99]], 3⟩ 2 = some (Hash.leaf [99]) ∧
    Hash.leaf [99] ∈ [Hash.leaf [99],
        Hash.node (Hash.leaf [97]) (Hash.leaf [98])] := by
  decide

/-- C4 (amended): on an API-built tree whose root has been computed, a valid
index yields `Ok` of the per-level sibling walk `openingSpec` — one sibling
per level from the leaf level upward, where the last node of an odd-length
level is its own sibling (so the opening can contain the leaf's own hash) —
whose length equals `calculate_height(leaf_count)` and which never contains
the root. -/
theorem opening_per_level_no_root (t : MerkleTree) (i : Nat)
    (hre : Reachable t) (hi : i < t.leaf_count) :
    MerkleTree.get_opening ((MerkleTree.get_root t).1) i
      = some (.ok (openingSpec (MerkleTree.calculate_height t.leaf_count) i
          t.nodes)) ∧
    (openingSpec (MerkleTree.calculate_height t.leaf_count) i t.nodes).length
      = MerkleTree.calculate_height t.leaf_count ∧
    (∀ r, (MerkleTree.get_root t).2 = some r →
      r ∉ openingSpec (MerkleTree.calculate_height t.leaf_count) i t.nodes) := by
  have hlen := reachable_len t hre
  have hn : 1 ≤ t.leaf_count := by omega
  refine ⟨get_opening_rooted_eq t i hlen hi, openingSpec_length _ _ _, ?_⟩
  intro r hr hmem
  rw [get_root_root_eq t hlen hn] at hr
  obtain rfl := (Option.some.inj hr).symm
  have htop := (level_length_conds t hlen hn).2
  obtain ⟨x, hx⟩ := List.length_eq_one.mp htop
  have hrtop : (levelIter t.nodes
      (MerkleTree.calculate_height t.leaf_count)).headD Hash.default
      ∈ levelIter t.nodes (MerkleTree.calculate_height t.leaf_count) := by
    rw [hx]; simp
  have hat := reachable_atomic t hre
  have hszr := levelIter_hsize t.nodes hat
    (MerkleTree.calculate_height t.leaf_count) _ hrtop
  obtain ⟨j, hj, hmemj⟩ := openingSpec_mem
    (MerkleTree.calculate_height t.leaf_count) i t.nodes
    (by rw [hlen]; exact hi) _ hmem
  have hszx := levelIter_hsize t.nodes hat j _ hmemj
  have hlt : 2 ^ (j + 1)
      < 2 ^ (MerkleTree.calculate_height t.leaf_count + 1) :=
    Nat.pow_lt_pow_right (by omega) (by omega)
  have h1 : 1 ≤ 2 ^ (j + 1) := Nat.one_le_two_pow
  omega

/-- Witness for C4 at the 1-leaf tree and index 0. -/
theorem opening_per_level_no_root_witness :
    MerkleTree.get_opening ((MerkleTree.get_root (MerkleTree.new 1)).1) 0
      = some (.ok (openingSpec
          (MerkleTree.calculate_height (MerkleTree.new 1).leaf_count) 0
          (MerkleTree.new 1).nodes)) ∧
    (openingSpec (MerkleTree.calculate_height (MerkleTree.new 1).leaf_count) 0
        (MerkleTree.new 1).nodes).length
      = MerkleTree.calculate_height (MerkleTree.new 1).leaf_count ∧
    (∀ r, (MerkleTree.get_root (MerkleTree.new 1)).2 = some r →
      r ∉ openingSpec (MerkleTree.calculate_height (MerkleTree.new 1).leaf_count)
          0 (MerkleTree.new 1).nodes) :=
  opening_per_level_no_root (MerkleTree.new 1) 0 (Reachable.new 1) (by decide)

/-- C5: `calculate_height` is the exact integer `ceil(log2)` (`Nat.clog 2`,
the spec's definition) for positive counts, coincides with the number of
`calculate_next_level_len` halving steps that reduce the count to `1`
(`halvingSteps`), and is `0` at `0`. -/
theorem height_is_clog_and_halving_steps (n : Nat) :
    (0 < n → MerkleTree.calculate_height n = Nat.clog 2 n) ∧
    MerkleTree.calculate_height n = halvingSteps n ∧
    MerkleTree.calculate_height 0 = 0 := by
  refine ⟨fun _ => calculate_height_eq_clog n, ?_, rfl⟩
  rw [calculate_height_eq_clog, clog_eq_halvingSteps]

/-- C6: `calculate_max_capacity` equals the sum of every level length reached
from `leaf_count` by repeated `calculate_next_level_len`, the leaf level
included and `0` at `0` (`levelSum`); and `calculate_next_level_len` returns
`n / 2` for even `n > 1`, `(n + 1) / 2` for odd `n > 1`, and `0` for
`n ≤ 1`. -/
theorem max_capacity_is_level_sum (n : Nat) :
    MerkleTree.calculate_max_capacity n = levelSum n ∧
    (∀ m, 1 < m → MerkleTree.calculate_next_level_len m
        = if m % 2 = 0 then m / 2 else (m + 1) / 2) ∧
    (∀ m, m ≤ 1 → MerkleTree.calculate_next_level_len m = 0) := by
  refine ⟨?_, ?_, fun m hm => next_level_len_of_le_one hm⟩
  · by_cases h : 0 < n
    · have := capacityLoop_levelSum n n
      rw [MerkleTree.calculate_max_capacity, if_pos h]
      omega
    · have hn : n = 0 := by omega
      subst hn
      rw [levelSum]
      rfl
  · intro m hm
    rw [next_level_len_eq hm]
    split
    · next he => omega
    · rfl

/-- C7: `insert` fails with `LeafIndexOutOfBounds` exactly when the cursor
equals `leaf_count` (tree full), and `get_opening` / `verify_opening` fail
with `LeafIndexOutOfBounds` exactly when the index is at least `leaf_count`.
In the functional embedding the error paths return before producing any
updated tree (Rust returns `Err` before mutating, and the two queries take
`&self`), so the tree's state is unchanged in every error case. -/
theorem leaf_index_error_exactness (t : MerkleTree) (d : List Nat) (i : Nat)
    (o : List Hash) (r : Hash) :
    ((∃ m, MerkleTree.insert t d = .error (.LeafIndexOutOfBounds m))
      ↔ t.current_leaf_index = t.leaf_count) ∧
    ((∃ m, MerkleTree.get_opening t i = some (.error (.LeafIndexOutOfBounds m)))
      ↔ t.leaf_count ≤ i) ∧
    ((∃ m, MerkleTree.verify_opening t o r i
        = some (.error (.LeafIndexOutOfBounds m)))
      ↔ t.leaf_count ≤ i) := by
  refine ⟨⟨?_, ?_⟩, ⟨?_, ?_⟩, ⟨?_, ?_⟩⟩
  · rintro ⟨m, hm⟩
    by_cases hfull : t.current_leaf_index == t.leaf_count
    · exact beq_iff_eq.mp hfull
    · rw [MerkleTree.insert, if_neg hfull] at hm
      exact absurd hm (by simp)
  · intro h
    refine ⟨"New leaf exceeds size of tree: " ++ toString t.leaf_count, ?_⟩
    rw [MerkleTree.insert, if_pos (by simp [h])]
  · rintro ⟨m, hm⟩
    by_contra hlt
    rw [MerkleTree.get_opening, if_neg (by omega)] at hm
    rcases hsl : MerkleTree.listSlice? t.nodes 0 t.leaf_count with _ | lvl <;>
      rw [hsl] at hm
    · simp at hm
    · rcases hol : MerkleTree.openingLoop t.nodes
          (MerkleTree.calculate_height t.leaf_count + 1) i t.leaf_count lvl 0
          none none [] with _ | path <;>
        simp [hol] at hm
  · intro h
    refine ⟨"Tree has " ++ toString t.leaf_count
      ++ " leaves but index given was " ++ toString i, ?_⟩
    rw [MerkleTree.get_opening, if_pos (by omega)]
  · rintro ⟨m, hm⟩
    by_contra hlt
    rw [MerkleTree.verify_opening, if_neg (by omega)] at hm
    rcases hg : t.nodes.get? i with _ | leaf <;> rw [hg] at hm <;> simp at hm
  · intro h
    refine ⟨"Tree has " ++ toString t.leaf_count
      ++ " leaves but index given was " ++ toString i, ?_⟩
    rw [MerkleTree.verify_opening, if_pos (by omega)]

/-- C8 counterexample: `new(1)` with no leaf inserted. `get_root` does not
return an absent result: it hashes the placeholder row and yields
`Some(DEFAULT_LEAF)` (for a single leaf, the placeholder itself), so "None
when called before any leaves have been inserted" fails. -/
theorem get_root_some_before_any_insert :
    (MerkleTree.new 1).current_leaf_index = 0 ∧
    (MerkleTree.get_root (MerkleTree.new 1)).2 = some Hash.defaultLeaf ∧
    ¬ (MerkleTree.get_root (MerkleTree.new 1)).2 = none := by
  decide

/-- C8 (amended): on an API-built tree, `get_root` returns `None` exactly
when `leaf_count = 0`; with `leaf_count ≥ 1` it returns `Some` even before
any insertion (a root over placeholder leaves). It always returns the last
element of the node sequence, which for `leaf_count ≥ 1` is the single node
of the top level — the root. -/
theorem get_root_none_iff_no_capacity (t : MerkleTree) (hre : Reachable t) :
    ((MerkleTree.get_root t).2 = none ↔ t.leaf_count = 0) ∧
    (MerkleTree.get_root t).2 = (MerkleTree.get_root t).1.nodes.getLast? ∧
    (1 ≤ t.leaf_count → (MerkleTree.get_root t).2
      = some ((levelIter t.nodes
          (MerkleTree.calculate_height t.leaf_count)).headD Hash.default)) := by
  have hlen := reachable_len t hre
  refine ⟨⟨?_, ?_⟩, get_root_last t, fun hn => get_root_root_eq t hlen hn⟩
  · intro h0
    by_contra hne
    rw [get_root_root_eq t hlen (by omega)] at h0
    simp at h0
  · intro h0
    have hnil : t.nodes = [] := List.length_eq_zero.mp (by omega)
    have hh : MerkleTree.calculate_height t.leaf_count = 0 := by
      rw [h0]; rfl
    have hview : (MerkleTree.get_root t).1.nodes
        = MerkleTree.rootLoopAux (MerkleTree.calculate_height t.leaf_count)
            t.nodes 0 t.leaf_count t.nodes := rfl
    rw [get_root_last, hview, hh, MerkleTree.rootLoopAux, hnil]
    rfl

/-- Witness for C8 at the freshly constructed 2-leaf tree. -/
theorem get_root_none_iff_no_capacity_witness :
    ((MerkleTree.get_root (MerkleTree.new 2)).2 = none
      ↔ (MerkleTree.new 2).leaf_count = 0) ∧
    (MerkleTree.get_root (MerkleTree.new 2)).2
      = (MerkleTree.get_root (MerkleTree.new 2)).1.nodes.getLast? ∧
    (1 ≤ (MerkleTree.new 2).leaf_count →
      (MerkleTree.get_root (MerkleTree.new 2)).2
        = some ((levelIter (MerkleTree.new 2).nodes
            (MerkleTree.calculate_height
              (MerkleTree.new 2).leaf_count)).headD Hash.default)) :=
  get_root_none_iff_no_capacity (MerkleTree.new 2) (Reachable.new 2)

/-- C9 counterexample: `get_opening` called before `get_root` on `new(2)`
(a valid index, `0 < leaf_count`): the walk slices
`nodes[leaf_count .. leaf_count + next_level_len(leaf_count)]`, past the end
of the not-yet-extended node array — the modelled out-of-bounds panic
(`none`), contradicting "performs no out-of-bounds index or slice access
regardless of whether `get_root` has been called first". -/
theorem get_opening_oob_slice_before_root :
    0 < (MerkleTree.new 2).leaf_count ∧
    MerkleTree.get_opening (MerkleTree.new 2) 0 = none := by
  decide

/-- C9 (amended): on an API-built tree, once `get_root` has run,
`get_opening` at a valid index performs no out-of-bounds access (it returns
a value, never the modelled panic), and `verify_opening` at a valid index
never panics, before or after rooting; `new`, `insert`, `get_value` and
`get_root` are total. The exception the counterexample forces is
`get_opening` before `get_root` with `leaf_count ≥ 2`. -/
theorem no_oob_access_after_root (t : MerkleTree) (i : Nat)
    (hre : Reachable t) (hi : i < t.leaf_count) :
    MerkleTree.get_opening ((MerkleTree.get_root t).1) i ≠ none ∧
    (∀ o r, MerkleTree.verify_opening t o r i ≠ none) ∧
    (∀ o r, MerkleTree.verify_opening ((MerkleTree.get_root t).1) o r i
      ≠ none) := by
  have hlen := reachable_len t hre
  refine ⟨?_, ?_, ?_⟩
  · rw [get_opening_rooted_eq t i hlen hi]
    simp
  · intro o r
    rw [verify_opening_eq t o r i hi (by omega)]
    simp
  · intro o r
    have hlen2 : i < ((MerkleTree.get_root t).1).nodes.length := by
      rw [get_root_nodes t hlen (by omega), List.length_append]
      omega
    have hlc : ((MerkleTree.get_root t).1).leaf_count = t.leaf_count := rfl
    rw [verify_opening_eq _ o r i (by rw [hlc]; exact hi) hlen2]
    simp

/-- Witness for C9 at the rooted 1-leaf tree and index 0. -/
theorem no_oob_access_after_root_witness :
    MerkleTree.get_opening ((MerkleTree.get_root (MerkleTree.new 1)).1) 0
      ≠ none ∧
    (∀ o r, MerkleTree.verify_opening (MerkleTree.new 1) o r 0 ≠ none) ∧
    (∀ o r, MerkleTree.verify_opening
        ((MerkleTree.get_root (MerkleTree.new 1)).1) o r 0 ≠ none) :=
  no_oob_access_after_root (MerkleTree.new 1) 0 (Reachable.new 1) (by decide)

/-- C10: `get_value` reads only the leaf window `nodes[0..leaf_count]`: a
valid index returns `Some` of the node-array slot, an index at or past
`leaf_count` returns `None` — so interior nodes and the root, which live at
indices `≥ leaf_count` once `get_root` has appended them, are never exposed,
and the total `Option` result models the panic-free `.get`. The hypothesis
`leaf_count ≤ nodes.len()` holds on every API-built tree, before and after
rooting. -/
theorem get_value_leaves_only (t : MerkleTree) (i : Nat)
    (hlen : t.leaf_count ≤ t.nodes.length) :
    (i < t.leaf_count → MerkleTree.get_value t i
      = some (t.nodes.getD i Hash.default)) ∧
    (t.leaf_count ≤ i → MerkleTree.get_value t i = none) := by
  constructor
  · intro hi
    rw [MerkleTree.get_value, List.get?_take hi, List.getD_eq_getElem?_getD,
      List.get?_eq_getElem?, List.getElem?_eq_getElem (by omega)]
    simp
  · intro hi
    rw [MerkleTree.get_value]
    apply List.get?_eq_none.mpr
    simp only [List.length_take]
    omega

/-- Witness for C10 at the rooted 2-leaf tree and the one-past-the-end
index 2 (the root's slot after `get_root`). -/
theorem get_value_leaves_only_witness :
    (2 < (MerkleTree.get_root ⟨2, [Hash.leaf [97], Hash.leaf [98]], 2⟩).1.leaf_count →
      MerkleTree.get_value
          (MerkleTree.get_root ⟨2, [Hash.leaf [97], Hash.leaf [98]], 2⟩).1 2
        = some ((MerkleTree.get_root
            ⟨2, [Hash.leaf [97], Hash.leaf [98]], 2⟩).1.nodes.getD 2
              Hash.default)) ∧
    ((MerkleTree.get_root ⟨2, [Hash.leaf [97], Hash.leaf [98]], 2⟩).1.leaf_count
        ≤ 2 →
      MerkleTree.get_value
          (MerkleTree.get_root ⟨2, [Hash.leaf [97], Hash.leaf [98]], 2⟩).1 2
        = none) :=
  get_value_leaves_only
    (MerkleTree.get_root ⟨2, [Hash.leaf [97], Hash.leaf [98]], 2⟩).1 2
    (by decide)
